import Mathlib

/-!
Verification of the Prometheus metric encoding engine
(src/sinks/prometheus/collector.rs).

The data model (`Metric`, `MetricValue`, `MetricKind`, `StatisticKind`) is
the input type of the encoder; it lives in the repository's event module and
is modelled here from the spec's section 3.  Floating point values (`f64`)
are modelled as rationals; sample rates (`u64`) as naturals.  The
`MetricCollector` trait's provided method `encode_metric` is embedded as
`encodeMetricWith`, generic over the collector state and its `emit`
function, exactly as the Rust trait is generic over `Self`.
-/

namespace Collector

/-- Modelled from the spec (section 3): metric kind; only `Absolute`
metrics are eligible for encoding. -/
inductive MetricKind where
  | absolute
  | incremental
deriving DecidableEq

/-- Modelled from the spec: `kind.is_absolute()` from the event module
(not under src/). -/
def MetricKind.isAbsolute : MetricKind → Bool
  | .absolute => true
  | .incremental => false

/-- Modelled from the spec (section 3): the statistic requested for a
`Distribution` value. -/
inductive StatisticKind where
  | histogram
  | summary
deriving DecidableEq

/-- A tag map (`BTreeMap<String, String>` in the source), modelled as an
association list; `encode_tags` sorts its rendered output, so the encoder's
output does not depend on the iteration order. -/
abbrev TagMap := List (String × String)

/-- Modelled from the spec (section 3): the closed union of metric value
shapes. -/
inductive MetricValue where
  | counter (value : ℚ)
  | gauge (value : ℚ)
  | set (values : Finset String)
  | distribution (values : List ℚ) (sample_rates : List ℕ)
      (statistic : StatisticKind)
  | aggregatedHistogram (buckets : List ℚ) (counts : List ℕ)
      (count : ℕ) (sum : ℚ)
  | aggregatedSummary (quantiles : List ℚ) (values : List ℚ)
      (count : ℕ) (sum : ℚ)

/-- Modelled from the spec (section 3): one metric snapshot.  The
timestamp is kept as the already-extracted unix seconds
(`metric.timestamp.map(|t| t.timestamp())` in the source). -/
structure Metric where
  name : String
  nspace : Option String
  timestamp : Option Int
  tags : Option TagMap
  kind : MetricKind
  value : MetricValue

/-- The argument tuple of `MetricCollector::emit`: one sample to be
rendered. -/
structure Sample where
  timestamp : Int
  name : String
  suffix : String
  value : ℚ
  tags : Option TagMap
  extra : Option (String × String)
deriving DecidableEq

/-- The result of the external weighted-statistic routine
(`DistributionStatistic` from sinks/util/statistic.rs, not under src/);
only its shape is needed, the routine itself is a parameter `dstat` of the
encoder below, matching the spec's black-box contract. -/
structure DistributionStatistic where
  quantiles : List (ℚ × ℚ)
  sum : ℚ
  count : ℕ
  min : ℚ
  max : ℚ
  avg : ℚ

/-- Modelled from the spec (section 4.1): `encode_namespace` from
sinks/util (not under src/): if the namespace is absent or empty the name
is returned unchanged, otherwise `namespace + separator + name`. -/
def encodeNamespace (nspace : Option String) (sep : Char) (name : String) :
    String :=
  match nspace with
  | some n => if n = "" then name else n ++ sep.toString ++ name
  | none => name

/-- Integer part of a nonnegative rational (`q.num / q.den`). -/
def ratIntPart (q : ℚ) : ℤ := q.num / (q.den : ℤ)

/-- Decimal digits of a rational in `[0, 1)`, most significant first,
stopping at zero remainder or when the fuel runs out. -/
def fracDigits : ℕ → ℚ → String
  | 0, _ => ""
  | fuel + 1, q =>
    if q = 0 then ""
    else
      let q10 := q * 10
      let d := ratIntPart q10
      toString d ++ fracDigits fuel (q10 - (d : ℚ))

/-- Rendering of a nonnegative rational in compact decimal form. -/
def fmtNonneg (q : ℚ) : String :=
  let ip := ratIntPart q
  let frac := q - (ip : ℚ)
  if frac = 0 then toString ip else toString ip ++ "." ++ fracDigits 30 frac

/-- Modelled from the spec (section 4.4): Rust's `f64` `Display`
(`value.to_string()` / `write!("{}", value)`): compact decimal that
collapses integral floats (`10.0` renders as `10`, `-1.1` stays
`-1.1`). -/
def fmtValue (q : ℚ) : String :=
  if q < 0 then "-" ++ fmtNonneg (-q) else fmtNonneg q

/-- `format!("{}=\"{}\"", name, value)`: one rendered tag pair. -/
def fmtTag (nv : String × String) : String := nv.1 ++ "=\"" ++ nv.2 ++ "\""

/-- `StringCollector::encode_tags`: renders the tag map plus the optional
synthesized tag.  `parts.sort()` (a stable comparison sort on the rendered
strings) is modelled by `List.insertionSort (· ≤ ·)`, which computes the
same sorted list. -/
def encodeTags (tags : Option TagMap) (extra : Option (String × String)) :
    String :=
  match tags, extra with
  | none, none => ""
  | none, some tag => "\x7b" ++ fmtTag tag ++ "\x7d"
  | some tags, tag =>
    let parts := tags.map fmtTag
    let parts :=
      match tag with
      | some t => parts ++ [fmtTag t]
      | none => parts
    let parts := List.insertionSort (· ≤ ·) parts
    "\x7b" ++ String.intercalate "," parts ++ "\x7d"

/-- `StringCollector::emit`: appends `name`, `suffix`, the rendered tags,
then a space, the rendered value and a newline.  The timestamp argument is
ignored, as in the source (`_timestamp`). -/
def stringEmit (res : String) (s : Sample) : String :=
  res ++ s.name ++ s.suffix ++ encodeTags s.tags s.extra
    ++ " " ++ fmtValue s.value ++ "\n"

/-- The TYPE line's metric type, by value shape
(`StringCollector::encode_header`'s match). -/
def metricTypeName : MetricValue → String
  | .counter _ => "counter"
  | .gauge _ => "gauge"
  | .distribution _ _ .histogram => "histogram"
  | .distribution _ _ .summary => "summary"
  | .set _ => "gauge"
  | .aggregatedHistogram _ _ _ _ => "histogram"
  | .aggregatedSummary _ _ _ _ => "summary"

/-- `StringCollector::encode_header`: appends the `# HELP` and `# TYPE`
lines to the collector's buffer. -/
def encodeHeader (nspace : Option String) (metric : Metric) (res : String) :
    String :=
  let name := metric.name
  let fullname := encodeNamespace nspace '_' name
  res ++ "# HELP " ++ fullname ++ " " ++ name ++ "\n"
    ++ "# TYPE " ++ fullname ++ " " ++ metricTypeName metric.value ++ "\n"

/-- The body of `counts[i] += c` in the histogram accumulation loop. -/
def setAdd (c : ℕ) (cs : List ℕ) (ib : ℕ × ℚ) : List ℕ :=
  cs.set ib.1 (cs.getD ib.1 0 + c)

/-- The inner loop of the Distribution/Histogram arm:
`buckets.iter().enumerate().skip_while(|&(_, b)| b < v).for_each(|(i, _)| counts[i] += c)`. -/
def bumpCounts (buckets : List ℚ) (v : ℚ) (c : ℕ) (counts : List ℕ) :
    List ℕ :=
  ((buckets.enum).dropWhile (fun ib => decide (ib.2 < v))).foldl
    (setAdd c) counts

/-- One iteration of the Distribution/Histogram accumulation loop over a
`(value, sample_rate)` pair: bump the bucket counts, add `v * c` to the
running sum, add `c` to the running count. -/
def histStep (buckets : List ℚ) (acc : List ℕ × ℚ × ℕ) (vc : ℚ × ℕ) :
    List ℕ × ℚ × ℕ :=
  (bumpCounts buckets vc.1 vc.2 acc.1,
   acc.2.1 + vc.1 * (vc.2 : ℚ),
   acc.2.2 + vc.2)

/-- `MetricCollector::encode_metric`, the provided trait method, generic
over the collector state `σ` and its `emit` function exactly as the Rust
trait is generic over `Self`.  `dstat` is the external
`DistributionStatistic::new` routine the Distribution/Summary arm
delegates to. -/
def encodeMetricWith {σ : Type}
    (dstat : List ℚ → List ℕ → List ℚ → Option DistributionStatistic)
    (emit : σ → Sample → σ)
    (nspace : Option String) (buckets : List ℚ) (quantiles : List ℚ)
    (expired : Bool) (metric : Metric) (st : σ) : σ :=
  let name := encodeNamespace nspace '_' metric.name
  let timestamp : Int := metric.timestamp.getD 0
  if metric.kind.isAbsolute then
    let tags := metric.tags
    match metric.value with
    | .counter value => emit st ⟨timestamp, name, "", value, tags, none⟩
    | .gauge value => emit st ⟨timestamp, name, "", value, tags, none⟩
    | .set values =>
      let value : ℕ := if expired then 0 else values.card
      emit st ⟨timestamp, name, "", (value : ℚ), tags, none⟩
    | .distribution values sample_rates .histogram =>
      let acc := (values.zip sample_rates).foldl (histStep buckets)
        (List.replicate buckets.length 0, 0, 0)
      let st := (buckets.zip acc.1).foldl
        (fun st bc =>
          emit st ⟨timestamp, name, "_bucket", (bc.2 : ℚ), tags,
            some ("le", fmtValue bc.1)⟩) st
      let st := emit st ⟨timestamp, name, "_bucket", (acc.2.2 : ℚ), tags,
        some ("le", "+Inf")⟩
      let st := emit st ⟨timestamp, name, "_sum", acc.2.1, tags, none⟩
      emit st ⟨timestamp, name, "_count", (acc.2.2 : ℚ), tags, none⟩
    | .distribution values sample_rates .summary =>
      match dstat values sample_rates quantiles with
      | some stat =>
        let st := stat.quantiles.foldl
          (fun st qv =>
            emit st ⟨timestamp, name, "", qv.2, tags,
              some ("quantile", fmtValue qv.1)⟩) st
        let st := emit st ⟨timestamp, name, "_sum", stat.sum, tags, none⟩
        let st := emit st
          ⟨timestamp, name, "_count", (stat.count : ℚ), tags, none⟩
        let st := emit st ⟨timestamp, name, "_min", stat.min, tags, none⟩
        let st := emit st ⟨timestamp, name, "_max", stat.max, tags, none⟩
        emit st ⟨timestamp, name, "_avg", stat.avg, tags, none⟩
      | none =>
        let st := emit st ⟨timestamp, name, "_sum", 0, tags, none⟩
        emit st ⟨timestamp, name, "_count", 0, tags, none⟩
    | .aggregatedHistogram bs cs count sum =>
      let st := (bs.zip cs).foldl
        (fun st bc =>
          emit st ⟨timestamp, name, "_bucket", (bc.2 : ℚ), tags,
            some ("le", fmtValue bc.1)⟩) st
      let st := emit st ⟨timestamp, name, "_bucket", (count : ℚ), tags,
        some ("le", "+Inf")⟩
      let st := emit st ⟨timestamp, name, "_sum", sum, tags, none⟩
      emit st ⟨timestamp, name, "_count", (count : ℚ), tags, none⟩
    | .aggregatedSummary quantiles2 values count sum =>
      let st := (quantiles2.zip values).foldl
        (fun st qv =>
          emit st ⟨timestamp, name, "", qv.2, tags,
            some ("quantile", fmtValue qv.1)⟩) st
      let st := emit st ⟨timestamp, name, "_sum", sum, tags, none⟩
      emit st ⟨timestamp, name, "_count", (count : ℚ), tags, none⟩
  else st

/-- The sample-list collector: `emit` records the sample. -/
def listEmit (l : List Sample) (s : Sample) : List Sample := l ++ [s]

/-- `encode_metric` observed through the sample-list collector: the exact
sequence of `emit` calls the dispatcher makes. -/
def encodeMetricSamples
    (dstat : List ℚ → List ℕ → List ℚ → Option DistributionStatistic)
    (nspace : Option String) (buckets : List ℚ) (quantiles : List ℚ)
    (expired : Bool) (metric : Metric) : List Sample :=
  encodeMetricWith dstat listEmit nspace buckets quantiles expired metric []

/-- `encode_metric` on the reference `StringCollector`, starting from the
buffer `res`. -/
def encodeMetricString
    (dstat : List ℚ → List ℕ → List ℚ → Option DistributionStatistic)
    (nspace : Option String) (buckets : List ℚ) (quantiles : List ℚ)
    (expired : Bool) (metric : Metric) (res : String) : String :=
  encodeMetricWith dstat stringEmit nspace buckets quantiles expired metric
    res

/-- A concrete instance of the external statistic routine that always
reports an empty sample set; used for concrete evaluations of arms that
never consult it. -/
def noStat : List ℚ → List ℕ → List ℚ → Option DistributionStatistic :=
  fun _ _ _ => none

/-- Total weight with value at most `b` of a weighted sample list. -/
def weightLe (pairs : List (ℚ × ℕ)) (b : ℚ) : ℕ :=
  (pairs.map (fun p => if p.1 ≤ b then p.2 else 0)).sum

/-- Total weight of a weighted sample list. -/
def totalWeight (pairs : List (ℚ × ℕ)) : ℕ := (pairs.map Prod.snd).sum

/-- Weighted sum of a weighted sample list. -/
def weightedSum (pairs : List (ℚ × ℕ)) : ℚ :=
  (pairs.map (fun p => p.1 * (p.2 : ℚ))).sum

/-! ### List index utilities -/

theorem getD_set (l : List ℕ) (i j x : ℕ) :
    (l.set i x).getD j 0 = if i = j ∧ i < l.length then x else l.getD j 0 := by
  simp only [List.getD_eq_getElem?_getD, List.getElem?_set]
  by_cases h1 : i = j
  · subst h1
    by_cases h2 : i < l.length
    · simp [h2]
    · have hn : l[i]? = none := List.getElem?_eq_none (by omega)
      simp [h2, hn]
  · simp [h1]

theorem getD_oob (l : List ℕ) (i : ℕ) (h : l.length ≤ i) : l.getD i 0 = 0 := by
  simp [List.getD_eq_getElem?_getD, List.getElem?_eq_none h]

theorem getD_eq_get {α : Type} (l : List α) (i : ℕ) (d : α)
    (h : i < l.length) : l.getD i d = l.get ⟨i, h⟩ := by
  simp [List.getD_eq_getElem?_getD, List.getElem?_eq_getElem h]

theorem getD_mem {α : Type} (l : List α) (i : ℕ) (d : α)
    (h : i < l.length) : l.getD i d ∈ l := by
  rw [getD_eq_get l i d h]
  exact l.get_mem i h

theorem getD_append_left {α : Type} (l1 l2 : List α) (i : ℕ) (d : α)
    (h : i < l1.length) : (l1 ++ l2).getD i d = l1.getD i d := by
  induction l1 generalizing i with
  | nil => simp at h
  | cons a t ih =>
    cases i with
    | zero => simp
    | succ i2 => simpa using ih i2 (by simpa using h)

theorem getD_append_right {α : Type} (l1 l2 : List α) (i : ℕ) (d : α)
    (h : l1.length ≤ i) :
    (l1 ++ l2).getD i d = l2.getD (i - l1.length) d := by
  induction l1 generalizing i with
  | nil => simp
  | cons a t ih =>
    cases i with
    | zero => simp at h
    | succ i2 =>
      have h2 : t.length ≤ i2 := by simpa using h
      simpa [Nat.succ_sub_succ] using ih i2 h2

theorem getD_map_lt {α β : Type} (f : α → β) (l : List α) (i : ℕ)
    (d : β) (da : α) (h : i < l.length) :
    (l.map f).getD i d = f (l.getD i da) := by
  induction l generalizing i with
  | nil => simp at h
  | cons a t ih =>
    cases i with
    | zero => simp
    | succ i2 => simpa using ih i2 (by simpa using h)

theorem getD_replicate_zero (n i : ℕ) :
    (List.replicate n (0 : ℕ)).getD i 0 = 0 := by
  simp only [List.getD_eq_getElem?_getD, List.getElem?_replicate]
  by_cases h : i < n <;> simp [h]

theorem list_eq_of_getD (l1 l2 : List ℕ) (hlen : l1.length = l2.length)
    (h : ∀ i, i < l1.length → l1.getD i 0 = l2.getD i 0) : l1 = l2 := by
  induction l1 generalizing l2 with
  | nil => cases l2 with
    | nil => rfl
    | cons b t2 => simp at hlen
  | cons a t1 ih =>
    cases l2 with
    | nil => simp at hlen
    | cons b t2 =>
      have h0 := h 0 (by simp)
      simp only [List.getD_cons_zero] at h0
      have ht : t1 = t2 := by
        refine ih t2 (by simpa using hlen) ?_
        intro i hi
        simpa using h (i + 1) (by simpa using Nat.succ_lt_succ hi)
      rw [h0, ht]

theorem sorted_getD_le (l : List ℚ) (hs : List.Sorted (· ≤ ·) l)
    (i j : ℕ) (hij : i ≤ j) (hj : j < l.length) :
    l.getD i 0 ≤ l.getD j 0 := by
  rcases Nat.eq_or_lt_of_le hij with he | hl
  · rw [he]
  · have hi : i < l.length := lt_of_le_of_lt hij hj
    rw [getD_eq_get l i 0 hi, getD_eq_get l j 0 hj]
    exact hs.rel_get_of_lt (Fin.mk_lt_mk.mpr hl)

theorem zip_map_self {α β : Type} (f : α → β) (l : List α) :
    l.zip (l.map f) = l.map (fun b => (b, f b)) := by
  induction l with
  | nil => rfl
  | cons a t ih => simp [ih]

/-! ### The histogram accumulation loop -/

theorem foldl_setAdd_enumFrom (c : ℕ) (bl : List ℚ) :
    ∀ (s : ℕ) (cs : List ℕ) (i : ℕ),
      ((List.enumFrom s bl).foldl (setAdd c) cs).getD i 0
        = cs.getD i 0
          + (if s ≤ i ∧ i < s + bl.length ∧ i < cs.length then c else 0) := by
  induction bl with
  | nil =>
    intro s cs i
    simp only [List.enumFrom, List.foldl_nil, List.length_nil]
    rw [if_neg (by omega), Nat.add_zero]
  | cons b rest ih =>
    intro s cs i
    rw [show (List.enumFrom s (b :: rest)).foldl (setAdd c) cs
        = (List.enumFrom (s + 1) rest).foldl (setAdd c) (setAdd c cs (s, b))
      from rfl, ih]
    simp only [setAdd, List.length_set, getD_set, List.length_cons]
    by_cases his : s = i
    · subst his
      split_ifs <;> omega
    · rw [if_neg (fun hc => his hc.1)]
      split_ifs <;> omega

theorem foldl_setAdd_dropWhile (v : ℚ) (c : ℕ) (bl : List ℚ) :
    ∀ (s : ℕ) (cs : List ℕ), List.Pairwise (· ≤ ·) bl → ∀ i,
      (((List.enumFrom s bl).dropWhile (fun ib => decide (ib.2 < v))).foldl
          (setAdd c) cs).getD i 0
        = cs.getD i 0
          + (if s ≤ i ∧ i < s + bl.length ∧ i < cs.length
                ∧ v ≤ bl.getD (i - s) 0 then c else 0) := by
  induction bl with
  | nil =>
    intro s cs _ i
    have hfold : (((List.enumFrom s ([] : List ℚ)).dropWhile
        (fun ib => decide (ib.2 < v))).foldl (setAdd c) cs) = cs := rfl
    rw [hfold, if_neg (by rintro ⟨h1, h2, -, -⟩; simp at h2; omega),
      Nat.add_zero]
  | cons b rest ih =>
    intro s cs hpw i
    rw [List.pairwise_cons] at hpw
    obtain ⟨hb, hrest⟩ := hpw
    by_cases hbv : b < v
    · have hstep : ((List.enumFrom s (b :: rest)).dropWhile
          (fun ib => decide (ib.2 < v)))
          = (List.enumFrom (s + 1) rest).dropWhile
            (fun ib => decide (ib.2 < v)) := by
        rw [show List.enumFrom s (b :: rest)
            = (s, b) :: List.enumFrom (s + 1) rest from rfl,
          List.dropWhile_cons, if_pos (by simpa using hbv)]
      have hiff : (s ≤ i ∧ i < s + (b :: rest).length ∧ i < cs.length
            ∧ v ≤ (b :: rest).getD (i - s) 0)
          ↔ (s + 1 ≤ i ∧ i < s + 1 + rest.length ∧ i < cs.length
            ∧ v ≤ rest.getD (i - (s + 1)) 0) := by
        constructor
        · rintro ⟨h1, h2, h3, h4⟩
          rcases Nat.eq_or_lt_of_le h1 with he | hl
          · exfalso
            rw [← he, Nat.sub_self, List.getD_cons_zero] at h4
            exact absurd h4 (not_le.mpr hbv)
          · have hd : i - s = (i - (s + 1)) + 1 := by omega
            rw [hd, List.getD_cons_succ] at h4
            refine ⟨by omega, by simp only [List.length_cons] at h2; omega,
              h3, h4⟩
        · rintro ⟨h1, h2, h3, h4⟩
          have hd : i - s = (i - (s + 1)) + 1 := by omega
          rw [hd, List.getD_cons_succ]
          refine ⟨by omega, by simp only [List.length_cons]; omega, h3, h4⟩
      rw [hstep, ih (s + 1) cs hrest i]
      simp only [hiff]
    · have hstep : ((List.enumFrom s (b :: rest)).dropWhile
          (fun ib => decide (ib.2 < v)))
          = List.enumFrom s (b :: rest) := by
        rw [show List.enumFrom s (b :: rest)
            = (s, b) :: List.enumFrom (s + 1) rest from rfl,
          List.dropWhile_cons, if_neg (by simpa using hbv)]
      have hcov : ∀ j, j < (b :: rest).length → v ≤ (b :: rest).getD j 0 := by
        intro j hj
        cases j with
        | zero => simpa using not_lt.mp hbv
        | succ j2 =>
          have hj2 : j2 < rest.length := by simpa using hj
          rw [List.getD_cons_succ]
          exact le_trans (not_lt.mp hbv) (hb _ (getD_mem rest j2 0 hj2))
      have hiff : (s ≤ i ∧ i < s + (b :: rest).length ∧ i < cs.length)
          ↔ (s ≤ i ∧ i < s + (b :: rest).length ∧ i < cs.length
            ∧ v ≤ (b :: rest).getD (i - s) 0) := by
        constructor
        · rintro ⟨h1, h2, h3⟩
          have hlt : i - s < (b :: rest).length := by
            simp only [List.length_cons] at h2 ⊢
            omega
          exact ⟨h1, h2, h3, hcov (i - s) hlt⟩
        · rintro ⟨h1, h2, h3, -⟩
          exact ⟨h1, h2, h3⟩
      rw [hstep, foldl_setAdd_enumFrom c (b :: rest) s cs i]
      simp only [hiff]

theorem bumpCounts_getD (buckets : List ℚ) (v : ℚ) (c : ℕ) (cs : List ℕ)
    (hpw : List.Pairwise (· ≤ ·) buckets) (i : ℕ) :
    (bumpCounts buckets v c cs).getD i 0
      = cs.getD i 0
        + (if i < buckets.length ∧ i < cs.length ∧ v ≤ buckets.getD i 0
            then c else 0) := by
  have h := foldl_setAdd_dropWhile v c buckets 0 cs hpw i
  rw [bumpCounts, show List.enum buckets = List.enumFrom 0 buckets from rfl,
    h]
  simp

theorem foldl_setAdd_length (c : ℕ) (l : List (ℕ × ℚ)) :
    ∀ cs : List ℕ, (l.foldl (setAdd c) cs).length = cs.length := by
  induction l with
  | nil => intro cs; rfl
  | cons p rest ih =>
    intro cs
    rw [List.foldl_cons, ih]
    simp [setAdd]

theorem bumpCounts_length (buckets : List ℚ) (v : ℚ) (c : ℕ)
    (cs : List ℕ) : (bumpCounts buckets v c cs).length = cs.length := by
  rw [bumpCounts]
  exact foldl_setAdd_length c _ cs

theorem weightLe_cons (p : ℚ × ℕ) (ps : List (ℚ × ℕ)) (b : ℚ) :
    weightLe (p :: ps) b = (if p.1 ≤ b then p.2 else 0) + weightLe ps b := by
  simp [weightLe]

theorem weightLe_mono (ps : List (ℚ × ℕ)) (b1 b2 : ℚ) (h : b1 ≤ b2) :
    weightLe ps b1 ≤ weightLe ps b2 := by
  induction ps with
  | nil => simp [weightLe]
  | cons p rest ih =>
    rw [weightLe_cons, weightLe_cons]
    refine Nat.add_le_add ?_ ih
    by_cases hp : p.1 ≤ b1
    · rw [if_pos hp, if_pos (hp.trans h)]
    · rw [if_neg hp]
      exact Nat.zero_le _

theorem histFold_counts_length (buckets : List ℚ) (ps : List (ℚ × ℕ)) :
    ∀ acc : List ℕ × ℚ × ℕ,
      ((ps.foldl (histStep buckets) acc).1).length = acc.1.length := by
  induction ps with
  | nil => intro acc; rfl
  | cons p rest ih =>
    intro acc
    rw [List.foldl_cons, ih]
    simp [histStep, bumpCounts_length]

theorem histFold_sum (buckets : List ℚ) (ps : List (ℚ × ℕ)) :
    ∀ acc : List ℕ × ℚ × ℕ,
      (ps.foldl (histStep buckets) acc).2.1 = acc.2.1 + weightedSum ps := by
  induction ps with
  | nil => intro acc; simp [weightedSum]
  | cons p rest ih =>
    intro acc
    rw [List.foldl_cons, ih]
    simp [histStep, weightedSum, add_assoc]

theorem histFold_count (buckets : List ℚ) (ps : List (ℚ × ℕ)) :
    ∀ acc : List ℕ × ℚ × ℕ,
      (ps.foldl (histStep buckets) acc).2.2 = acc.2.2 + totalWeight ps := by
  induction ps with
  | nil => intro acc; simp [totalWeight]
  | cons p rest ih =>
    intro acc
    rw [List.foldl_cons, ih]
    simp [histStep, totalWeight, add_assoc]

theorem histFold_counts (buckets : List ℚ)
    (hpw : List.Pairwise (· ≤ ·) buckets) (ps : List (ℚ × ℕ)) :
    ∀ (cs : List ℕ) (a : ℚ) (t : ℕ), cs.length = buckets.length →
      ∀ i, i < buckets.length →
      ((ps.foldl (histStep buckets) (cs, a, t)).1).getD i 0
        = cs.getD i 0 + weightLe ps (buckets.getD i 0) := by
  induction ps with
  | nil =>
    intro cs a t hlen i hi
    simp [weightLe]
  | cons p rest ih =>
    intro cs a t hlen i hi
    rw [List.foldl_cons,
      show histStep buckets (cs, a, t) p
        = (bumpCounts buckets p.1 p.2 cs, a + p.1 * (p.2 : ℚ), t + p.2)
      from rfl,
      ih _ _ _ (by rw [bumpCounts_length]; exact hlen) i hi,
      bumpCounts_getD buckets p.1 p.2 cs hpw i, weightLe_cons]
    have hred : (i < buckets.length ∧ i < cs.length
          ∧ p.1 ≤ buckets.getD i 0)
        ↔ (p.1 ≤ buckets.getD i 0) := by
      constructor
      · rintro ⟨-, -, h⟩
        exact h
      · intro h
        exact ⟨hi, by omega, h⟩
    simp only [hred]
    omega

/-! ### Emission through the sample-list collector -/

theorem foldl_listEmit_map {α : Type} (g : α → Sample) (l : List α) :
    ∀ init : List Sample,
      l.foldl (fun acc x => acc ++ [g x]) init = init ++ l.map g := by
  induction l with
  | nil => intro init; simp
  | cons x rest ih =>
    intro init
    rw [List.foldl_cons, ih]
    simp [listEmit]

/-- The sample sequence of the Distribution/Histogram arm, in closed form:
one cumulative `_bucket` sample per boundary (counting the weight of all
samples with value at most the boundary), the `+Inf` bucket with the total
weight, then `_sum` and `_count`. -/
theorem hist_samples
    (dstat : List ℚ → List ℕ → List ℚ → Option DistributionStatistic)
    (nspace : Option String) (buckets quantiles : List ℚ) (expired : Bool)
    (nm : String) (np : Option String) (ts : Option Int) (tg : Option TagMap)
    (vs : List ℚ) (rs : List ℕ)
    (hpw : List.Pairwise (· ≤ ·) buckets) :
    encodeMetricSamples dstat nspace buckets quantiles expired
      ⟨nm, np, ts, tg, .absolute, .distribution vs rs .histogram⟩
    = buckets.map (fun b =>
        ⟨ts.getD 0, encodeNamespace nspace '_' nm, "_bucket",
          (weightLe (vs.zip rs) b : ℚ), tg, some ("le", fmtValue b)⟩)
      ++ [⟨ts.getD 0, encodeNamespace nspace '_' nm, "_bucket",
            (totalWeight (vs.zip rs) : ℚ), tg, some ("le", "+Inf")⟩,
          ⟨ts.getD 0, encodeNamespace nspace '_' nm, "_sum",
            weightedSum (vs.zip rs), tg, none⟩,
          ⟨ts.getD 0, encodeNamespace nspace '_' nm, "_count",
            (totalWeight (vs.zip rs) : ℚ), tg, none⟩] := by
  have hcounts : ((vs.zip rs).foldl (histStep buckets)
      (List.replicate buckets.length 0, 0, 0)).1
      = buckets.map (fun b => weightLe (vs.zip rs) b) := by
    refine list_eq_of_getD _ _ ?_ ?_
    · rw [histFold_counts_length]
      simp
    · intro i hi
      have hi2 : i < buckets.length := by
        rw [histFold_counts_length] at hi
        simpa using hi
      rw [histFold_counts buckets hpw (vs.zip rs) _ _ _ (by simp) i hi2,
        getD_replicate_zero, getD_map_lt _ _ _ _ 0 hi2, Nat.zero_add]
  simp only [encodeMetricSamples, encodeMetricWith, MetricKind.isAbsolute,
    hcounts, histFold_sum, histFold_count, zero_add,
    zip_map_self (fun b => weightLe (vs.zip rs) b) buckets,
    foldl_listEmit_map, listEmit, List.map_map, if_pos]
  simp [Function.comp, List.append_assoc]

/-! ### Claims -/

/-- Claim C1: for every Absolute metric with a Histogram-statistic
Distribution value and every ascending bucket list, `encode_metric` adds,
for each `(value, weight)` pair, `weight` to the count of every bucket
whose upper bound is at least the value, `value * weight` to the sum and
`weight` to the total; it then emits one `_bucket` sample per boundary in
ascending order tagged with `le`, a final `+Inf` bucket whose value is the
total, then `_sum` and `_count`.  In particular the spec's round-trip
example `values [1,2,3]`, `sample_rates [3,3,2]`, `buckets [0, 2.5, 5]`
yields bucket values `0, 6, 8`, `+Inf 8`, sum `15`, count `8`. -/
theorem c1_distribution_histogram
    (dstat : List ℚ → List ℕ → List ℚ → Option DistributionStatistic)
    (nspace : Option String) (buckets quantiles : List ℚ) (expired : Bool)
    (nm : String) (np : Option String) (ts : Option Int) (tg : Option TagMap)
    (vs : List ℚ) (rs : List ℕ)
    (hasc : List.Sorted (· < ·) buckets) :
    (encodeMetricSamples dstat nspace buckets quantiles expired
        ⟨nm, np, ts, tg, .absolute, .distribution vs rs .histogram⟩
      = buckets.map (fun b =>
          ⟨ts.getD 0, encodeNamespace nspace '_' nm, "_bucket",
            (weightLe (vs.zip rs) b : ℚ), tg, some ("le", fmtValue b)⟩)
        ++ [⟨ts.getD 0, encodeNamespace nspace '_' nm, "_bucket",
              (totalWeight (vs.zip rs) : ℚ), tg, some ("le", "+Inf")⟩,
            ⟨ts.getD 0, encodeNamespace nspace '_' nm, "_sum",
              weightedSum (vs.zip rs), tg, none⟩,
            ⟨ts.getD 0, encodeNamespace nspace '_' nm, "_count",
              (totalWeight (vs.zip rs) : ℚ), tg, none⟩])
    ∧ encodeMetricSamples noStat none [0, mkRat 5 2, 5] [] false
        ⟨"requests", none, none, none, .absolute,
          .distribution [1, 2, 3] [3, 3, 2] .histogram⟩
      = [⟨0, "requests", "_bucket", 0, none, some ("le", "0")⟩,
         ⟨0, "requests", "_bucket", 6, none, some ("le", "2.5")⟩,
         ⟨0, "requests", "_bucket", 8, none, some ("le", "5")⟩,
         ⟨0, "requests", "_bucket", 8, none, some ("le", "+Inf")⟩,
         ⟨0, "requests", "_sum", 15, none, none⟩,
         ⟨0, "requests", "_count", 8, none, none⟩] :=
  ⟨hist_samples dstat nspace buckets quantiles expired nm np ts tg vs rs
    (List.Pairwise.imp le_of_lt hasc), by with_unfolding_all decide⟩

/-- Witness for C1 at the spec's own example input. -/
theorem c1_distribution_histogram_witness :
    List.Sorted (· < ·) ([0, mkRat 5 2, 5] : List ℚ)
    ∧ ((encodeMetricSamples noStat none [0, mkRat 5 2, 5] [] false
        ⟨"requests", none, none, none, .absolute,
          .distribution [1, 2, 3] [3, 3, 2] .histogram⟩
      = ([0, mkRat 5 2, 5] : List ℚ).map (fun b =>
          ⟨(none : Option Int).getD 0, encodeNamespace none '_' "requests",
            "_bucket", (weightLe ([1, 2, 3].zip [3, 3, 2]) b : ℚ), none,
            some ("le", fmtValue b)⟩)
        ++ [⟨(none : Option Int).getD 0, encodeNamespace none '_' "requests",
              "_bucket", (totalWeight ([1, 2, 3].zip [3, 3, 2]) : ℚ), none,
              some ("le", "+Inf")⟩,
            ⟨(none : Option Int).getD 0, encodeNamespace none '_' "requests",
              "_sum", weightedSum ([1, 2, 3].zip [3, 3, 2]), none, none⟩,
            ⟨(none : Option Int).getD 0, encodeNamespace none '_' "requests",
              "_count", (totalWeight ([1, 2, 3].zip [3, 3, 2]) : ℚ), none,
              none⟩])
      ∧ encodeMetricSamples noStat none [0, mkRat 5 2, 5] [] false
        ⟨"requests", none, none, none, .absolute,
          .distribution [1, 2, 3] [3, 3, 2] .histogram⟩
      = [⟨0, "requests", "_bucket", 0, none, some ("le", "0")⟩,
         ⟨0, "requests", "_bucket", 6, none, some ("le", "2.5")⟩,
         ⟨0, "requests", "_bucket", 8, none, some ("le", "5")⟩,
         ⟨0, "requests", "_bucket", 8, none, some ("le", "+Inf")⟩,
         ⟨0, "requests", "_sum", 15, none, none⟩,
         ⟨0, "requests", "_count", 8, none, none⟩]) :=
  ⟨by with_unfolding_all decide,
   c1_distribution_histogram noStat none [0, mkRat 5 2, 5] [] false
     "requests" none none none [1, 2, 3] [3, 3, 2]
     (by with_unfolding_all decide)⟩

/-- Claim C2: for every Absolute metric with an AggregatedHistogram value,
`encode_metric` emits each `counts[i]` verbatim as the `_bucket` sample for
boundary `buckets[i]` (no re-accumulation), then a `+Inf` bucket whose
value is the metric's own `count` field, then `_sum` and `_count` from the
metric's own fields.  In particular buckets `[1, 2.1, 3]`, counts
`[1, 2, 3]`, count `6`, sum `12.5` yields per-bucket samples `1, 2, 3`,
`+Inf 6`, sum `12.5`, count `6`. -/
theorem c2_aggregated_histogram_passthrough
    (dstat : List ℚ → List ℕ → List ℚ → Option DistributionStatistic)
    (nspace : Option String) (buckets quantiles : List ℚ) (expired : Bool)
    (nm : String) (np : Option String) (ts : Option Int) (tg : Option TagMap)
    (bs : List ℚ) (cts : List ℕ) (cnt : ℕ) (sm : ℚ) :
    (encodeMetricSamples dstat nspace buckets quantiles expired
        ⟨nm, np, ts, tg, .absolute, .aggregatedHistogram bs cts cnt sm⟩
      = (bs.zip cts).map (fun bc =>
          ⟨ts.getD 0, encodeNamespace nspace '_' nm, "_bucket", (bc.2 : ℚ),
            tg, some ("le", fmtValue bc.1)⟩)
        ++ [⟨ts.getD 0, encodeNamespace nspace '_' nm, "_bucket", (cnt : ℚ),
              tg, some ("le", "+Inf")⟩,
            ⟨ts.getD 0, encodeNamespace nspace '_' nm, "_sum", sm, tg, none⟩,
            ⟨ts.getD 0, encodeNamespace nspace '_' nm, "_count", (cnt : ℚ),
              tg, none⟩])
    ∧ encodeMetricSamples noStat none [] [] false
        ⟨"requests", none, none, none, .absolute,
          .aggregatedHistogram [1, mkRat 21 10, 3] [1, 2, 3] 6 (mkRat 25 2)⟩
      = [⟨0, "requests", "_bucket", 1, none, some ("le", "1")⟩,
         ⟨0, "requests", "_bucket", 2, none, some ("le", "2.1")⟩,
         ⟨0, "requests", "_bucket", 3, none, some ("le", "3")⟩,
         ⟨0, "requests", "_bucket", 6, none, some ("le", "+Inf")⟩,
         ⟨0, "requests", "_sum", mkRat 25 2, none, none⟩,
         ⟨0, "requests", "_count", 6, none, none⟩] := by
  constructor
  · simp only [encodeMetricSamples, encodeMetricWith, MetricKind.isAbsolute,
      foldl_listEmit_map, listEmit, if_pos]
    simp [List.append_assoc]
  · with_unfolding_all decide

/-- Claim C4: `encode_metric` on an Incremental metric emits nothing: the
collector state is returned unchanged, for every collector, value shape,
tags, buckets, quantiles and expired flag. -/
theorem c4_incremental_skipped {σ : Type}
    (dstat : List ℚ → List ℕ → List ℚ → Option DistributionStatistic)
    (emit : σ → Sample → σ) (nspace : Option String)
    (buckets quantiles : List ℚ) (expired : Bool) (nm : String)
    (np : Option String) (ts : Option Int) (tg : Option TagMap)
    (v : MetricValue) (st : σ) :
    encodeMetricWith dstat emit nspace buckets quantiles expired
      ⟨nm, np, ts, tg, .incremental, v⟩ st = st := rfl

/-- Claim C7: for every Absolute Set metric, `encode_metric` emits exactly
one sample with empty suffix whose value is `0` when the expired flag is
set (whatever the cardinality), and the set's cardinality otherwise. -/
theorem c7_set_expiry
    (dstat : List ℚ → List ℕ → List ℚ → Option DistributionStatistic)
    (nspace : Option String) (buckets quantiles : List ℚ) (expired : Bool)
    (nm : String) (np : Option String) (ts : Option Int) (tg : Option TagMap)
    (vals : Finset String) :
    encodeMetricSamples dstat nspace buckets quantiles expired
      ⟨nm, np, ts, tg, .absolute, .set vals⟩
    = [⟨ts.getD 0, encodeNamespace nspace '_' nm, "",
        ((if expired then 0 else vals.card : ℕ) : ℚ), tg, none⟩] := by
  cases expired <;> rfl

/-- Claim C5: for every Absolute Summary-statistic Distribution metric,
when the external weighted-statistic routine returns no result the encoder
emits exactly the two samples `_sum 0` and `_count 0` rather than nothing;
when it returns a result, it emits one unsuffixed `quantile`-tagged sample
per `(quantile, value)` pair, then `_sum`, `_count`, `_min`, `_max` and
`_avg`. -/
theorem c5_summary_degenerate
    (dstat : List ℚ → List ℕ → List ℚ → Option DistributionStatistic)
    (nspace : Option String) (buckets quantiles : List ℚ) (expired : Bool)
    (nm : String) (np : Option String) (ts : Option Int) (tg : Option TagMap)
    (vs : List ℚ) (rs : List ℕ) :
    encodeMetricSamples dstat nspace buckets quantiles expired
      ⟨nm, np, ts, tg, .absolute, .distribution vs rs .summary⟩
    = (match dstat vs rs quantiles with
       | none =>
         [⟨ts.getD 0, encodeNamespace nspace '_' nm, "_sum", 0, tg, none⟩,
          ⟨ts.getD 0, encodeNamespace nspace '_' nm, "_count", 0, tg, none⟩]
       | some stat =>
         stat.quantiles.map (fun qv =>
           ⟨ts.getD 0, encodeNamespace nspace '_' nm, "", qv.2, tg,
             some ("quantile", fmtValue qv.1)⟩)
         ++ [⟨ts.getD 0, encodeNamespace nspace '_' nm, "_sum", stat.sum,
               tg, none⟩,
             ⟨ts.getD 0, encodeNamespace nspace '_' nm, "_count",
               (stat.count : ℚ), tg, none⟩,
             ⟨ts.getD 0, encodeNamespace nspace '_' nm, "_min", stat.min,
               tg, none⟩,
             ⟨ts.getD 0, encodeNamespace nspace '_' nm, "_max", stat.max,
               tg, none⟩,
             ⟨ts.getD 0, encodeNamespace nspace '_' nm, "_avg", stat.avg,
               tg, none⟩]) := by
  rcases hd : dstat vs rs quantiles with _ | stat
  · simp only [encodeMetricSamples, encodeMetricWith, MetricKind.isAbsolute,
      hd, listEmit, if_pos]
    rfl
  · simp only [encodeMetricSamples, encodeMetricWith, MetricKind.isAbsolute,
      hd, foldl_listEmit_map, listEmit, if_pos]
    simp [List.append_assoc]

/-- Claim C6: the tag renderer yields the empty string with no tags and no
extra pair; only braces around the rendered extra pair when the tag map is
absent; and otherwise the rendered pairs with the extra pair appended,
sorted lexicographically by the rendered string, comma-joined and wrapped
in braces.  It never fails (it is a total function). -/
theorem c6_encode_tags :
    encodeTags none none = ""
    ∧ (∀ k v, encodeTags none (some (k, v))
        = "\x7b" ++ fmtTag (k, v) ++ "\x7d")
    ∧ ∀ (tags : TagMap) (extra : Option (String × String)),
        ∃ parts : List String,
          parts.Perm (tags.map fmtTag ++ extra.toList.map fmtTag)
          ∧ List.Sorted (· ≤ ·) parts
          ∧ encodeTags (some tags) extra
            = "\x7b" ++ String.intercalate "," parts ++ "\x7d" := by
  refine ⟨rfl, fun k v => rfl, ?_⟩
  intro tags extra
  cases extra with
  | none =>
    refine ⟨List.insertionSort (· ≤ ·) (tags.map fmtTag), ?_, ?_, rfl⟩
    · simpa using List.perm_insertionSort (· ≤ ·) (tags.map fmtTag)
    · exact List.sorted_insertionSort (· ≤ ·) (tags.map fmtTag)
  | some t =>
    refine ⟨List.insertionSort (· ≤ ·) (tags.map fmtTag ++ [fmtTag t]),
      ?_, ?_, rfl⟩
    · simpa using
        List.perm_insertionSort (· ≤ ·) (tags.map fmtTag ++ [fmtTag t])
    · exact List.sorted_insertionSort (· ≤ ·) _

/-- Claim C8: `encode_header` emits exactly the two newline-terminated
lines `# HELP fullname name` and `# TYPE fullname type`, reusing the bare
metric name as the HELP description, with the type determined by the value
shape: counters map to `counter`, gauges and sets to `gauge`,
histogram-statistic distributions and aggregated histograms to
`histogram`, summary-statistic distributions and aggregated summaries to
`summary`. -/
theorem c8_header (nspace : Option String) (m : Metric) (res : String) :
    encodeHeader nspace m res
      = res ++ "# HELP " ++ encodeNamespace nspace '_' m.name ++ " "
          ++ m.name ++ "\n"
          ++ "# TYPE " ++ encodeNamespace nspace '_' m.name ++ " "
          ++ (match m.value with
              | .counter _ => "counter"
              | .gauge _ => "gauge"
              | .set _ => "gauge"
              | .distribution _ _ .histogram => "histogram"
              | .aggregatedHistogram _ _ _ _ => "histogram"
              | .distribution _ _ .summary => "summary"
              | .aggregatedSummary _ _ _ _ => "summary") ++ "\n" := by
  obtain ⟨nm, np, ts, tg, k, v⟩ := m
  cases v with
  | counter a => rfl
  | gauge a => rfl
  | set a => rfl
  | distribution a b stat => cases stat <;> rfl
  | aggregatedHistogram a b c d => rfl
  | aggregatedSummary a b c d => rfl

/-- Claim C9: the reference text renderer never writes the timestamp: two
encodings that differ only in the metric's timestamp field produce the
same string buffer. -/
theorem c9_timestamp_ignored
    (dstat : List ℚ → List ℕ → List ℚ → Option DistributionStatistic)
    (nspace : Option String) (buckets quantiles : List ℚ) (expired : Bool)
    (nm : String) (np : Option String) (tg : Option TagMap)
    (k : MetricKind) (v : MetricValue) (t1 t2 : Option Int) (res : String) :
    encodeMetricString dstat nspace buckets quantiles expired
      ⟨nm, np, t1, tg, k, v⟩ res
    = encodeMetricString dstat nspace buckets quantiles expired
      ⟨nm, np, t2, tg, k, v⟩ res := by
  cases k with
  | incremental => rfl
  | absolute =>
    cases v with
    | counter a => rfl
    | gauge a => rfl
    | set a => rfl
    | distribution a b stat => cases stat <;> rfl
    | aggregatedHistogram a b c d => rfl
    | aggregatedSummary a b c d => rfl

/-- Claim C10: the paired iterations are total under violated parallel
array invariants: with mismatched lengths the `zip` truncates to the
common prefix.  An AggregatedHistogram emits `min |buckets| |counts| + 3`
samples, an AggregatedSummary `min |quantiles| |values| + 2` samples, and
the histogram-statistic Distribution accumulates exactly the zipped
common-length prefix of values and sample rates (its trailing `_count`
sample carries the truncated total weight). -/
theorem c10_zip_truncation
    (dstat : List ℚ → List ℕ → List ℚ → Option DistributionStatistic)
    (nspace : Option String) (buckets quantiles : List ℚ) (expired : Bool)
    (nm : String) (np : Option String) (ts : Option Int) (tg : Option TagMap)
    (vs : List ℚ) (rs : List ℕ) (bs : List ℚ) (cts : List ℕ) (cnt : ℕ)
    (sm : ℚ) (qls vls : List ℚ) :
    ((encodeMetricSamples dstat nspace buckets quantiles expired
        ⟨nm, np, ts, tg, .absolute, .aggregatedHistogram bs cts cnt sm⟩).length
      = min bs.length cts.length + 3)
    ∧ ((encodeMetricSamples dstat nspace buckets quantiles expired
        ⟨nm, np, ts, tg, .absolute, .aggregatedSummary qls vls cnt sm⟩).length
      = min qls.length vls.length + 2)
    ∧ ((encodeMetricSamples dstat nspace buckets quantiles expired
        ⟨nm, np, ts, tg, .absolute, .distribution vs rs .histogram⟩).getLast?
      = some ⟨ts.getD 0, encodeNamespace nspace '_' nm, "_count",
          (totalWeight (vs.zip rs) : ℚ), tg, none⟩)
    ∧ (vs.zip rs).length = min vs.length rs.length := by
  refine ⟨?_, ?_, ?_, List.length_zip vs rs⟩
  · simp only [encodeMetricSamples, encodeMetricWith, MetricKind.isAbsolute,
      foldl_listEmit_map, listEmit, if_pos]
    simp [List.length_zip]
  · simp only [encodeMetricSamples, encodeMetricWith, MetricKind.isAbsolute,
      foldl_listEmit_map, listEmit, if_pos]
    simp [List.length_zip]
  · simp only [encodeMetricSamples, encodeMetricWith, MetricKind.isAbsolute,
      listEmit, if_pos, histFold_count, zero_add]
    rw [List.getLast?_concat]

/-- Claim C3 as frozen is false: it ranges over both histogram-shaped
arms, but the AggregatedHistogram arm passes `counts` through verbatim, so
with the per-bucket (non-cumulative) counts `[5, 1]` over the ascending
internal buckets `[1, 2]` the emitted `_bucket` value sequence `5, 1` is
not monotonically non-decreasing. -/
theorem c3_counterexample :
    ¬ List.Sorted (· ≤ ·)
      (((encodeMetricSamples noStat none [] [] false
        ⟨"m", none, none, none, .absolute,
          .aggregatedHistogram [1, 2] [5, 1] 3 0⟩).take 2).map
        Sample.value) := by
  with_unfolding_all decide

/-- Claim C3 (amended): restricted to the Distribution/Histogram arm (the
arm that actually builds the cumulative histogram), over ascending
buckets, the emitted `_bucket` value sequence is monotonically
non-decreasing and the `+Inf` bucket (the sample at index
`buckets.length`) equals the sum of all sample weights.  The
AggregatedHistogram arm instead emits its counts verbatim, so the property
does not hold there. -/
theorem c3_histogram_cumulative_monotone
    (dstat : List ℚ → List ℕ → List ℚ → Option DistributionStatistic)
    (nspace : Option String) (buckets quantiles : List ℚ) (expired : Bool)
    (nm : String) (np : Option String) (ts : Option Int) (tg : Option TagMap)
    (vs : List ℚ) (rs : List ℕ)
    (hasc : List.Sorted (· < ·) buckets) (i j : ℕ) (hij : i ≤ j)
    (hj : j < buckets.length) :
    (((encodeMetricSamples dstat nspace buckets quantiles expired
        ⟨nm, np, ts, tg, .absolute, .distribution vs rs .histogram⟩).map
          Sample.value).getD i 0
      ≤ ((encodeMetricSamples dstat nspace buckets quantiles expired
        ⟨nm, np, ts, tg, .absolute, .distribution vs rs .histogram⟩).map
          Sample.value).getD j 0)
    ∧ ((encodeMetricSamples dstat nspace buckets quantiles expired
        ⟨nm, np, ts, tg, .absolute, .distribution vs rs .histogram⟩).map
          Sample.value).getD buckets.length 0
      = (totalWeight (vs.zip rs) : ℚ) := by
  have hv : (encodeMetricSamples dstat nspace buckets quantiles expired
      ⟨nm, np, ts, tg, .absolute, .distribution vs rs .histogram⟩).map
        Sample.value
      = buckets.map (fun b => (weightLe (vs.zip rs) b : ℚ))
        ++ [(totalWeight (vs.zip rs) : ℚ), weightedSum (vs.zip rs),
            (totalWeight (vs.zip rs) : ℚ)] := by
    rw [hist_samples dstat nspace buckets quantiles expired nm np ts tg vs
      rs (List.Pairwise.imp le_of_lt hasc)]
    simp [List.map_append, List.map_map, Function.comp]
  rw [hv]
  have hi : i < buckets.length := lt_of_le_of_lt hij hj
  have hleni :
      i < (buckets.map (fun b => (weightLe (vs.zip rs) b : ℚ))).length := by
    simpa using hi
  have hlenj :
      j < (buckets.map (fun b => (weightLe (vs.zip rs) b : ℚ))).length := by
    simpa using hj
  constructor
  · rw [getD_append_left _ _ i 0 hleni, getD_append_left _ _ j 0 hlenj,
      getD_map_lt _ buckets i 0 0 hi, getD_map_lt _ buckets j 0 0 hj]
    exact_mod_cast weightLe_mono (vs.zip rs) _ _
      (sorted_getD_le buckets (List.Pairwise.imp le_of_lt hasc) i j hij hj)
  · rw [getD_append_right _ _ buckets.length 0 (by simp)]
    simp

/-- Witness for the amended C3 at a concrete ascending bucket list. -/
theorem c3_histogram_cumulative_monotone_witness :
    List.Sorted (· < ·) ([0, 1, 2] : List ℚ) ∧ (0 : ℕ) ≤ 2
    ∧ 2 < ([0, 1, 2] : List ℚ).length
    ∧ ((((encodeMetricSamples noStat none [0, 1, 2] [] false
          ⟨"m", none, none, none, .absolute,
            .distribution [1] [2] .histogram⟩).map Sample.value).getD 0 0
        ≤ ((encodeMetricSamples noStat none [0, 1, 2] [] false
          ⟨"m", none, none, none, .absolute,
            .distribution [1] [2] .histogram⟩).map Sample.value).getD 2 0)
      ∧ ((encodeMetricSamples noStat none [0, 1, 2] [] false
          ⟨"m", none, none, none, .absolute,
            .distribution [1] [2] .histogram⟩).map Sample.value).getD
            ([0, 1, 2] : List ℚ).length 0
        = (totalWeight ([1].zip [2]) : ℚ)) :=
  ⟨by with_unfolding_all decide, by decide, by decide,
   c3_histogram_cumulative_monotone noStat none [0, 1, 2] [] false "m" none
     none none [1] [2] (by with_unfolding_all decide) 0 2 (by decide)
     (by decide)⟩

end Collector
